import Mathlib

/-!
# Verification of `clusttraj` (src/clusttraj/io.py)

Shallow embedding of the configuration layer (`configure_runtime`, `parse_args`)
and of the cluster-output routine `save_clusters_config` of the clusttraj
repository.  Machine floats of the source are modelled with `ℚ`; numpy arrays
with `List`; the external numeric kernels of the `rmsd` package
(`rmsd.kabsch`, the reorder algorithms) are abstracted as function parameters,
since only their types matter for the properties proved here.
-/

namespace Clusttraj

/-- A 3-dimensional coordinate row, modelling one row of an `N×3` numpy array. -/
abbrev Pt : Type := ℚ × ℚ × ℚ

/-- `rmsd.centroid`: the arithmetic mean of the coordinate rows.
(The mean of an empty set of rows is `(0,0,0)` in this model; the source
produces `nan` there and never takes that branch in the verified claims.) -/
def centroid (ps : List Pt) : Pt :=
  ((ps.length : ℚ))⁻¹ • ps.sum

/-- Python truthiness of an optional float such as `args.weight_solute`:
`None` and `0.0` are falsy, every other value is truthy. -/
def qTruthy : Option ℚ → Bool
  | none => false
  | some w => w ≠ 0

/-- Lines 791–794 of io.py: the weight vector of the final weighted Kabsch fit.
`W = np.zeros(total); W[:natoms] = ws/natoms; W[natoms:] = (1-ws)/(total-natoms)`.
Natural subtraction `total - natoms` matches the source, where
`Pr.shape[0] - natoms` is computed on machine integers with `natoms ≤ total`. -/
def buildWeights (total natoms : ℕ) (ws : ℚ) : List ℚ :=
  (List.range total).map (fun i =>
    if i < natoms then ws / (natoms : ℚ) else (1 - ws) / ((total : ℚ) - (natoms : ℚ)))

lemma buildWeights_sum_range (natoms : ℕ) (a b : ℚ) :
    ∀ total : ℕ,
      ((List.range total).map (fun i => if i < natoms then a else b)).sum
        = ((min total natoms : ℕ) : ℚ) * a + ((total - min total natoms : ℕ) : ℚ) * b := by
  intro total
  induction total with
  | zero => simp
  | succ t ih =>
    rw [List.range_succ, List.map_append, List.sum_append, ih]
    by_cases h : t < natoms
    · have h1 : min (t + 1) natoms = t + 1 := by omega
      have h2 : min t natoms = t := by omega
      simp only [List.map_cons, List.map_nil, List.sum_cons, List.sum_nil, if_pos h, h1, h2]
      have h3 : t + 1 - (t + 1) = 0 := by omega
      have h4 : t - t = 0 := by omega
      rw [h3, h4]
      push_cast
      ring
    · have h1 : min (t + 1) natoms = natoms := by omega
      have h2 : min t natoms = natoms := by omega
      simp only [List.map_cons, List.map_nil, List.sum_cons, List.sum_nil, if_neg h, h1, h2]
      have h3 : ((t + 1 - natoms : ℕ) : ℚ) = ((t - natoms : ℕ) : ℚ) + 1 := by
        have : t + 1 - natoms = (t - natoms) + 1 := by omega
        rw [this]; push_cast; ring
      rw [h3]
      ring

/-- C5 -- When `save_clusters_config` performs the final weighted Kabsch fit
(`weight_solute` set and `final_kabsch` true), the weight vector it builds
assigns `weight_solute/natoms` to each of the `natoms` solute entries and
`(1 - weight_solute)/(total - natoms)` to each solvent entry, so that for every
`weight_solute ∈ [0,1]` all weights are non-negative and their sum equals 1.
(The solute and solvent parts must both be non-empty for the divisions the
source performs to be defined, which is the situation the claim describes.) -/
theorem saveClustersConfig_weights_partition_unity
    (total natoms : ℕ) (ws : ℚ)
    (hn : 0 < natoms) (ht : natoms < total) (h0 : 0 ≤ ws) (h1 : ws ≤ 1) :
    (∀ i, i < natoms →
        (buildWeights total natoms ws).getD i 0 = ws / (natoms : ℚ))
    ∧ (∀ i, natoms ≤ i → i < total →
        (buildWeights total natoms ws).getD i 0 = (1 - ws) / ((total : ℚ) - (natoms : ℚ)))
    ∧ (∀ w ∈ buildWeights total natoms ws, 0 ≤ w)
    ∧ (buildWeights total natoms ws).sum = 1 := by
  have hna : (0 : ℚ) < (natoms : ℚ) := by exact_mod_cast hn
  have hsolv : (0 : ℚ) < (total : ℚ) - (natoms : ℚ) := by
    have : (natoms : ℚ) < (total : ℚ) := by exact_mod_cast ht
    linarith
  refine ⟨?_, ?_, ?_, ?_⟩
  · intro i hi
    unfold buildWeights
    rw [List.getD_eq_getElem?_getD]
    have hi' : i < total := lt_trans hi ht
    rw [List.getElem?_map, List.getElem?_range hi']
    simp [hi]
  · intro i hge hlt
    unfold buildWeights
    rw [List.getD_eq_getElem?_getD]
    rw [List.getElem?_map, List.getElem?_range hlt]
    have : ¬ i < natoms := by omega
    simp [this]
  · intro w hw
    unfold buildWeights at hw
    rcases List.mem_map.mp hw with ⟨i, _, rfl⟩
    by_cases h : i < natoms
    · simp only [if_pos h]
      positivity
    · simp only [if_neg h]
      have h1' : 0 ≤ 1 - ws := by linarith
      positivity
  · unfold buildWeights
    rw [buildWeights_sum_range]
    have hmin : min total natoms = natoms := by omega
    rw [hmin]
    have hc : ((total - natoms : ℕ) : ℚ) = (total : ℚ) - (natoms : ℚ) := by
      have h' : natoms ≤ total := le_of_lt ht
      push_cast [Nat.cast_sub h']
      ring
    rw [hc]
    field_simp

/-- Witness for the C5 theorem at `total = 5`, `natoms = 2`, `ws = 3/4`. -/
theorem saveClustersConfig_weights_partition_unity_witness :
    (buildWeights 5 2 (3/4)).getD 0 0 = (3/4) / (2 : ℚ)
    ∧ (buildWeights 5 2 (3/4)).getD 2 0 = (1 - 3/4) / ((5 : ℚ) - (2 : ℚ))
    ∧ (buildWeights 5 2 (3/4)).sum = 1 := by
  have h := saveClustersConfig_weights_partition_unity 5 2 (3/4)
    (by norm_num) (by norm_num) (by norm_num) (by norm_num)
  exact ⟨h.1 0 (by norm_num), h.2.1 2 (by norm_num) (by norm_num), h.2.2.2⟩

/-! ## Configuration layer: `configure_runtime` and `parse_args` (io.py lines 226–545)

The argparse-produced namespace is modelled by `Args` (argparse `None` is
`Option.none`, respectively `0` for `natoms_solute` whose supplied values are
forced positive by `check_positive`).  Externals — the formats known to the
molecular I/O library, the presence of the optional `qmllib` capability, and
the filesystem — are collected in `Env`.  `parser.error` (which exits) and
`raise FileExistsError` are modelled with `Except`. -/

/-- The argparse namespace produced from the command line (io.py lines 235–399). -/
structure Args where
  trajectory_file : String
  force : Bool
  nprocesses : ℕ
  no_hydrogen : Bool
  plot : Bool
  method : String
  clusters_configurations : Option String
  outputclusters : String
  reorder : Bool
  /-- `-eex`; `[]` models argparse `None` (with `nargs="+"` a supplied list is
  non-empty, and `check_positive` forces every entry to be `≥ 1`). -/
  reorder_exclusions : List ℕ
  reorder_solvent_only : Bool
  reorder_alg : String
  /-- `-ns`; `0` models argparse `None` (`check_positive` forces supplied values `≥ 1`). -/
  natoms_solute : ℕ
  weight_solute : Option ℚ
  optimal_ordering : Bool
  final_kabsch : Bool
  metrics : Bool
  verbose : Bool
  silhouette_score : Bool
  min_rmsd : Option ℚ
  input : Option String
  outputdistmat : String

/-- The external world consulted by the configuration layer. -/
structure Env where
  /-- keys of `pybel.informats` -/
  informats : List String
  /-- keys of `pybel.outformats` -/
  outformats : List String
  /-- `importlib.util.find_spec("qmllib")` succeeded (io.py lines 18–21) -/
  hasQml : Bool
  /-- `os.path.exists` -/
  pathExists : String → Bool

/-- The two kinds of fatal configuration-time failures of io.py:
`parser.error(...)` (which prints and exits) and `raise FileExistsError(...)`. -/
inductive ConfigError where
  | parserError (msg : String) : ConfigError
  | fileExistsError (msg : String) : ConfigError
deriving DecidableEq

/-- The `ClustOptions` dataclass (io.py lines 42–78) as filled in by
`parse_args`.  The `reorder_alg` callable field is omitted: it is determined by
`reorder_alg_name`, which is kept. -/
structure ClustOptions where
  trajfile : String
  min_rmsd : Option ℚ
  n_workers : ℕ
  method : String
  reorder_alg_name : String
  out_conf_fmt : Option String
  reorder : Bool
  reorder_solvent_only : Bool
  exclusions : Bool
  no_hydrogen : Bool
  input_distmat : Bool
  save_confs : Bool
  plot : Bool
  opt_order : Bool
  overwrite : Bool
  final_kabsch : Bool
  silhouette_score : Bool
  metrics : Bool
  distmat_name : String
  out_clust_name : String
  evo_name : Option String
  mds_name : Option String
  dendrogram_name : Option String
  out_conf_name : Option String
  summary_name : String
  solute_natoms : ℕ
  weight_solute : Option ℚ
  reorder_excl : List ℕ
  verbose : Bool

/-- Model of the extension part of `os.path.splitext(s)[1][1:]`: the suffix
after the last dot of the basename, where leading dots of the basename do not
start an extension. -/
def fileExt (s : String) : String :=
  let base := (s.splitOn "/").getLastD ""
  let cs := base.toList
  let lead := cs.takeWhile (fun c => c = '.')
  let rest := cs.drop lead.length
  let segs := (String.mk rest).splitOn "."
  if segs.length ≤ 1 then "" else segs.getLastD ""

/-- Model of `os.path.splitext(s)[0]`: `s` with the extension (and its dot)
removed. -/
def fileStem (s : String) : String :=
  if fileExt s = "" then s else s.dropRight ((fileExt s).length + 1)

/-- The linkage methods accepted by the `-m` check (io.py lines 410–418). -/
def validMethods : List String :=
  ["single", "complete", "average", "weighted", "centroid", "median", "ward"]

/-- The reorder algorithms accepted by the `--reorder-alg` check (io.py lines 421–427). -/
def validReorderAlgs : List String :=
  ["inertia-hungarian", "hungarian", "brute", "distance", "qml"]

/-- `parse_args` (io.py lines 470–545): builds the options dictionary, then
raises `FileExistsError` on an output-path collision without `-f`, else returns
the `ClustOptions`. -/
def parse_args (env : Env) (args : Args) : Except ConfigError ClustOptions :=
  let basenameout := fileStem args.outputclusters
  if args.input.isNone && env.pathExists args.outputdistmat && !args.force then
    .error (.fileExistsError ("File " ++ args.outputdistmat ++ " already exists, specify a new filename with the -od command option or use the -f option. If you are trying to read the RMSD matrix from a file, use the -i option."))
  else if env.pathExists args.outputclusters && !args.force then
    .error (.fileExistsError ("File " ++ args.outputclusters ++ " already exists, specify a new filename with the -oc command option or use the -f option."))
  else
    .ok
      { trajfile := args.trajectory_file
        min_rmsd := args.min_rmsd
        n_workers := args.nprocesses
        method := args.method
        reorder_alg_name := args.reorder_alg
        out_conf_fmt := args.clusters_configurations
        reorder := args.reorder
        reorder_solvent_only := args.reorder_solvent_only
        exclusions := !args.reorder_exclusions.isEmpty
        no_hydrogen := args.no_hydrogen
        input_distmat := args.input.isSome
        save_confs := args.clusters_configurations.isSome
        plot := args.plot
        opt_order := args.optimal_ordering
        overwrite := args.force
        final_kabsch := args.final_kabsch
        silhouette_score := args.silhouette_score
        metrics := args.metrics
        distmat_name := match args.input with
          | some i => i
          | none => args.outputdistmat
        out_clust_name := args.outputclusters
        evo_name := if args.plot then some (basenameout ++ "_evo.pdf") else none
        mds_name := if args.plot then some (basenameout ++ "_mds.pdf") else none
        dendrogram_name :=
          if args.plot then some (basenameout ++ "_dendrogram.pdf") else none
        out_conf_name := args.clusters_configurations.map (fun _ => basenameout ++ "_confs")
        summary_name := basenameout ++ ".out"
        solute_natoms := args.natoms_solute
        weight_solute := args.weight_solute
        reorder_excl := args.reorder_exclusions.map (fun x => x - 1)
        verbose := args.verbose }

/-- `configure_runtime` (io.py lines 226–467): the post-parse consistency
checks, in source order, ending in `parse_args`.  The `-eex`-without-`-e`
check only logs a warning, so it has no effect here. -/
def configure_runtime (env : Env) (args : Args) : Except ConfigError ClustOptions :=
  if !env.informats.contains (fileExt args.trajectory_file) then
    .error (.parserError ("The trajectory file format (" ++ fileExt args.trajectory_file ++ ") is not supported."))
  else if !validMethods.contains args.method then
    .error (.parserError ("The method you selected with -m (" ++ args.method ++ ") is not valid."))
  else if !validReorderAlgs.contains args.reorder_alg then
    .error (.parserError ("The reorder method you selected with --reorder-method (" ++ args.reorder_alg ++ ") is not valid."))
  else if args.reorder_alg == "qml" && !env.hasQml then
    .error (.parserError "You must have the optional dependency `qmllib` installed in order to use it as a reorder method.")
  else if (match args.clusters_configurations with
           | some fmt => !env.outformats.contains fmt
           | none => false) then
    .error (.parserError "The format you selected to save the clustered superposed configurations is not valid.")
  else if !args.reorder_exclusions.isEmpty && args.no_hydrogen then
    .error (.parserError "You cannot use --no-hydrogen and reorder exclusions with -eex at the same time")
  else if args.reorder_solvent_only && args.natoms_solute == 0 then
    .error (.parserError "You must specify the number of solute atoms with -ns to use the -rs option.")
  else if qTruthy args.weight_solute && args.natoms_solute == 0 then
    .error (.parserError "You must specify the number of solute atoms with -ns to use the -ws option.")
  else if qTruthy args.weight_solute &&
          (match args.weight_solute with
           | some w => decide (w < 0) || decide (1 < w)
           | none => false) then
    .error (.parserError "The weight of the solute atoms must be between 0 and 1.")
  else
    parse_args env args

/-- A successful `parse_args` copies the option fields straight from the
argparse namespace. -/
lemma parse_args_ok_fields (env : Env) (args : Args) (opts : ClustOptions)
    (h : parse_args env args = .ok opts) :
    opts.exclusions = !args.reorder_exclusions.isEmpty
    ∧ opts.no_hydrogen = args.no_hydrogen
    ∧ opts.weight_solute = args.weight_solute
    ∧ opts.reorder_alg_name = args.reorder_alg := by
  unfold parse_args at h
  repeat' split at h
  all_goals try (exact Except.noConfusion h)
  all_goals simp only [Except.ok.injEq] at h
  all_goals subst h
  all_goals exact ⟨rfl, rfl, rfl, rfl⟩

/-- C6 -- If both reorder exclusions and the no-hydrogen option are supplied,
`configure_runtime` fails with a configuration-time error before any distance
computation begins (no distance computation occurs inside `configure_runtime`,
so an `error` result is exactly such a failure); and the two options are never
both active in a returned `ClustOptions`. -/
theorem configureRuntime_rejects_exclusions_with_noHydrogen :
    (∀ env args, args.reorder_exclusions ≠ [] → args.no_hydrogen = true →
        ∃ e, configure_runtime env args = .error e)
    ∧ (∀ env args opts, configure_runtime env args = .ok opts →
        ¬ (opts.exclusions = true ∧ opts.no_hydrogen = true)) := by
  constructor
  · intro env args h1 h2
    unfold configure_runtime
    repeat' split
    all_goals first
      | exact ⟨_, rfl⟩
      | (exfalso; simp_all [List.isEmpty_iff])
  · intro env args opts h
    unfold configure_runtime at h
    repeat' split at h
    all_goals try (exact Except.noConfusion h)
    obtain ⟨hex, hnoh, -, -⟩ := parse_args_ok_fields env args opts h
    rintro ⟨he, hn⟩
    rw [hex] at he
    rw [hnoh] at hn
    simp_all

/-- Witness for the C6 theorem: a concrete argument set with `-eex 3` and
`-n` both supplied is rejected. -/
theorem configureRuntime_rejects_exclusions_with_noHydrogen_witness :
    ∃ e, configure_runtime
      { informats := ["xyz"], outformats := ["xyz"], hasQml := false,
        pathExists := fun _ => false }
      { trajectory_file := "traj.xyz", force := false, nprocesses := 4,
        no_hydrogen := true, plot := false, method := "average",
        clusters_configurations := none, outputclusters := "clusters.dat",
        reorder := true, reorder_exclusions := [3], reorder_solvent_only := false,
        reorder_alg := "hungarian", natoms_solute := 0, weight_solute := none,
        optimal_ordering := false, final_kabsch := false, metrics := false,
        verbose := false, silhouette_score := false, min_rmsd := some 1,
        input := none, outputdistmat := "distmat.npy" } = .error e :=
  configureRuntime_rejects_exclusions_with_noHydrogen.1 _ _ (by simp) rfl

/-- C7 -- For every `weight_solute` argument strictly less than 0 or strictly
greater than 1, `configure_runtime` fails with a configuration error before any
computation begins, and never returns a `ClustOptions` carrying such a
weight. -/
theorem configureRuntime_rejects_weight_outside_unit :
    (∀ env args w, args.weight_solute = some w → (w < 0 ∨ 1 < w) →
        ∃ e, configure_runtime env args = .error e)
    ∧ (∀ env args opts w, configure_runtime env args = .ok opts →
        opts.weight_solute = some w → 0 ≤ w ∧ w ≤ 1) := by
  constructor
  · intro env args w hw hout
    have htr : qTruthy args.weight_solute = true := by
      rw [hw]
      simp only [qTruthy, decide_eq_true_eq]
      rcases hout with h | h
      · exact ne_of_lt h
      · exact fun h0 => by simp [h0] at h; linarith
    unfold configure_runtime
    repeat' split
    all_goals try (exact ⟨_, rfl⟩)
    all_goals exfalso
    all_goals rename_i hcond
    all_goals rw [hw] at hcond
    all_goals rw [hw] at htr
    all_goals simp only [htr, Bool.true_and, Bool.not_eq_true, Bool.or_eq_false_iff,
      decide_eq_false_iff_not, not_lt] at hcond
    · rcases hout with h | h
      · exact absurd hcond.1 (not_le.mpr h)
      · exact absurd hcond.2 (not_le.mpr h)
  · intro env args opts w hok hw
    unfold configure_runtime at hok
    repeat' split at hok
    all_goals try (exact Except.noConfusion hok)
    obtain ⟨-, -, hws, -⟩ := parse_args_ok_fields env args opts hok
    rw [hws] at hw
    rename_i h1 h2 h3 h4 h5 h6 h7 h8 h9
    rw [hw] at h9
    by_cases h0 : w = 0
    · constructor <;> simp [h0]
    · have htr : qTruthy (some w) = true := by
        simp only [qTruthy, decide_eq_true_eq]; exact h0
      rw [htr] at h9
      simp only [Bool.true_and, Bool.not_eq_true, Bool.or_eq_false_iff,
        decide_eq_false_iff_not, not_lt] at h9
      exact h9

/-- Witness for the C7 theorem: `-ws 2` is rejected. -/
theorem configureRuntime_rejects_weight_outside_unit_witness :
    ∃ e, configure_runtime
      { informats := ["xyz"], outformats := ["xyz"], hasQml := false,
        pathExists := fun _ => false }
      { trajectory_file := "traj.xyz", force := false, nprocesses := 4,
        no_hydrogen := false, plot := false, method := "average",
        clusters_configurations := none, outputclusters := "clusters.dat",
        reorder := false, reorder_exclusions := [], reorder_solvent_only := false,
        reorder_alg := "hungarian", natoms_solute := 3, weight_solute := some 2,
        optimal_ordering := false, final_kabsch := false, metrics := false,
        verbose := false, silhouette_score := false, min_rmsd := some 1,
        input := none, outputdistmat := "distmat.npy" } = .error e :=
  configureRuntime_rejects_weight_outside_unit.1 _ _ 2 rfl (Or.inr (by norm_num))

/-- C8 -- Selecting the feature-similarity (`qml`) reorder algorithm when its
backing capability (`qmllib`) is not installed makes `configure_runtime` fail
with a configuration-time error; no `ClustOptions` carrying the `qml` strategy
is ever handed to the core engine in that situation, so the unavailability is
never surfaced as a runtime error of the core. -/
theorem configureRuntime_rejects_qml_without_capability :
    (∀ env args, args.reorder_alg = "qml" → env.hasQml = false →
        ∃ e, configure_runtime env args = .error e)
    ∧ (∀ env args opts, env.hasQml = false → configure_runtime env args = .ok opts →
        opts.reorder_alg_name ≠ "qml") := by
  constructor
  · intro env args halg hq
    unfold configure_runtime
    repeat' split
    all_goals try (exact ⟨_, rfl⟩)
    exfalso
    rename_i h1 h2 h3 h4 h5 h6 h7 h8 h9
    rw [halg, hq] at h4
    simp at h4
  · intro env args opts hq hok
    unfold configure_runtime at hok
    repeat' split at hok
    all_goals try (exact Except.noConfusion hok)
    obtain ⟨-, -, -, halg⟩ := parse_args_ok_fields env args opts hok
    rename_i h1 h2 h3 h4 h5 h6 h7 h8 h9
    intro hqml
    rw [halg] at hqml
    rw [hqml, hq] at h4
    simp at h4

/-- Witness for the C8 theorem: `--reorder-alg qml` without `qmllib` is
rejected. -/
theorem configureRuntime_rejects_qml_without_capability_witness :
    ∃ e, configure_runtime
      { informats := ["xyz"], outformats := ["xyz"], hasQml := false,
        pathExists := fun _ => false }
      { trajectory_file := "traj.xyz", force := false, nprocesses := 4,
        no_hydrogen := false, plot := false, method := "average",
        clusters_configurations := none, outputclusters := "clusters.dat",
        reorder := true, reorder_exclusions := [], reorder_solvent_only := false,
        reorder_alg := "qml", natoms_solute := 0, weight_solute := none,
        optimal_ordering := false, final_kabsch := false, metrics := false,
        verbose := false, silhouette_score := false, min_rmsd := some 1,
        input := none, outputdistmat := "distmat.npy" } = .error e :=
  configureRuntime_rejects_qml_without_capability.1 _ _ rfl rfl

/-- C9 -- If the clusters output file already exists, or no input distance
matrix is supplied and the distance-matrix output file already exists, and the
force-overwrite flag is not set, `parse_args` raises `FileExistsError`
(before any distance computation or file writing, neither of which occurs in
`parse_args`). -/
theorem parseArgs_rejects_output_collisions
    (env : Env) (args : Args) (hforce : args.force = false)
    (hcoll : env.pathExists args.outputclusters = true
      ∨ (args.input = none ∧ env.pathExists args.outputdistmat = true)) :
    ∃ msg, parse_args env args = .error (.fileExistsError msg) := by
  unfold parse_args
  rcases hcoll with hc | ⟨hin, hd⟩
  · split
    · exact ⟨_, rfl⟩
    · rw [if_pos (by simp [hc, hforce])]
      exact ⟨_, rfl⟩
  · rw [if_pos (by simp [hin, hd, hforce])]
    exact ⟨_, rfl⟩

/-- Witness for the C9 theorem: with `clusters.dat` already on disk and no
`-f`, `parse_args` fails with `FileExistsError`. -/
theorem parseArgs_rejects_output_collisions_witness :
    ∃ msg, parse_args
      { informats := ["xyz"], outformats := ["xyz"], hasQml := true,
        pathExists := fun _ => true }
      { trajectory_file := "traj.xyz", force := false, nprocesses := 4,
        no_hydrogen := false, plot := false, method := "average",
        clusters_configurations := none, outputclusters := "clusters.dat",
        reorder := false, reorder_exclusions := [], reorder_solvent_only := false,
        reorder_alg := "hungarian", natoms_solute := 0, weight_solute := none,
        optimal_ordering := false, final_kabsch := false, metrics := false,
        verbose := false, silhouette_score := false, min_rmsd := some 1,
        input := none, outputdistmat := "distmat.npy" } = .error (.fileExistsError msg) :=
  parseArgs_rejects_output_collisions _ _ rfl (Or.inl rfl)

/-! ## Medoid selection in `save_clusters_config` (io.py lines 585–602)

`distmat` is the condensed distance matrix; `scipy.spatial.distance.squareform`
expands it to the symmetric square matrix with zero diagonal, modelled by
`sqDist` through the standard condensed index mapping. -/

/-- The scipy condensed index of the pair `i < j` among `n` points:
`n*i - i*(i+1)/2 + (j - i - 1)`, written division-free over `ℕ`. -/
def condensedIndex (n i j : ℕ) : ℕ :=
  i * (2 * n - i - 1) / 2 + (j - i - 1)

/-- Entry `(i, j)` of `squareform(distmat)` for `n` points: zero diagonal,
symmetric off-diagonal entries read from the condensed array. -/
def sqDist (n : ℕ) (d : List ℚ) (i j : ℕ) : ℚ :=
  if i = j then 0
  else if i < j then d.getD (condensedIndex n i j) 0
  else d.getD (condensedIndex n j i) 0

/-- Line 601: `sublist = [num for (num, cluster) in enumerate(clusters) if
cluster == cnum]` — the members of cluster `cnum` in increasing frame order. -/
def clusterMembers (clusters : List ℕ) (cnum : ℕ) : List ℕ :=
  (List.range clusters.length).filter (fun i => clusters.getD i 0 == cnum)

/-- `np.argmin`: index of the first occurrence of the minimum (0 on `[]`,
matching numpy only on the non-empty lists it accepts). -/
def argminIdx : List ℚ → ℕ
  | [] => 0
  | [_] => 0
  | x :: y :: xs =>
    if x ≤ (y :: xs).getD (argminIdx (y :: xs)) 0 then 0 else argminIdx (y :: xs) + 1

/-- Line 598: the column sum of the masked submatrix for member `x` — the sum
of distances from `x` to every member of the cluster, read from the distance
matrix only. -/
def memberDistSum (clusters : List ℕ) (d : List ℚ) (cnum x : ℕ) : ℚ :=
  ((clusterMembers clusters cnum).map (fun y => sqDist clusters.length d y x)).sum

/-- `sum(sqdistmat[:, mask][mask, :])` (line 598): the python builtin `sum`
adds the rows of the masked submatrix, producing the vector of column sums
over the cluster members in increasing frame order. -/
def colSums (clusters : List ℕ) (d : List ℚ) (cnum : ℕ) : List ℚ :=
  (clusterMembers clusters cnum).map (fun x => memberDistSum clusters d cnum x)

/-- Lines 598–602: `medoid = sublist[np.argmin(sum(sqdistmat[:, mask][mask, :]))]`. -/
def medoidOf (clusters : List ℕ) (d : List ℚ) (cnum : ℕ) : ℕ :=
  (clusterMembers clusters cnum).getD (argminIdx (colSums clusters d cnum)) 0

lemma argminIdx_lt_length : ∀ (l : List ℚ), l ≠ [] → argminIdx l < l.length
  | [], h => absurd rfl h
  | [_], _ => Nat.zero_lt_one
  | x :: y :: xs, _ => by
    show (if x ≤ (y :: xs).getD (argminIdx (y :: xs)) 0 then 0
          else argminIdx (y :: xs) + 1) < (x :: y :: xs).length
    split
    · simp
    · have := argminIdx_lt_length (y :: xs) (by simp)
      simpa using Nat.succ_lt_succ this

lemma argminIdx_min : ∀ (l : List ℚ) (k : ℕ), k < l.length →
    l.getD (argminIdx l) 0 ≤ l.getD k 0
  | [], k, hk => by simp at hk
  | [x], k, hk => by
    have hk0 : k = 0 := by simpa using hk
    subst hk0
    exact le_refl _
  | x :: y :: xs, k, hk => by
    show (x :: y :: xs).getD
        (if x ≤ (y :: xs).getD (argminIdx (y :: xs)) 0 then 0
         else argminIdx (y :: xs) + 1) 0 ≤ (x :: y :: xs).getD k 0
    split
    · rename_i hle
      cases k with
      | zero => simp
      | succ k' =>
        have hk' : k' < (y :: xs).length := by simpa using Nat.lt_of_succ_lt_succ hk
        have := argminIdx_min (y :: xs) k' hk'
        simp only [List.getD_cons_zero, List.getD_cons_succ]
        exact le_trans hle this
    · rename_i hlt
      cases k with
      | zero =>
        simp only [List.getD_cons_zero, List.getD_cons_succ]
        exact le_of_lt (not_le.mp hlt)
      | succ k' =>
        have hk' : k' < (y :: xs).length := by simpa using Nat.lt_of_succ_lt_succ hk
        simp only [List.getD_cons_succ]
        exact argminIdx_min (y :: xs) k' hk'

lemma mem_clusterMembers {clusters : List ℕ} {cnum i : ℕ} :
    i ∈ clusterMembers clusters cnum ↔ i < clusters.length ∧ clusters.getD i 0 = cnum := by
  simp [clusterMembers, List.mem_filter]

lemma clusterMembers_nodup (clusters : List ℕ) (cnum : ℕ) :
    (clusterMembers clusters cnum).Nodup :=
  (List.nodup_range _).filter _

lemma medoidOf_mem (clusters : List ℕ) (d : List ℚ) (cnum : ℕ)
    (hne : clusterMembers clusters cnum ≠ []) :
    medoidOf clusters d cnum ∈ clusterMembers clusters cnum := by
  unfold medoidOf
  have hlen : (colSums clusters d cnum).length = (clusterMembers clusters cnum).length := by
    simp [colSums]
  have hcs : colSums clusters d cnum ≠ [] := by
    simp only [colSums, ne_eq, List.map_eq_nil_iff]
    exact hne
  have hlt : argminIdx (colSums clusters d cnum) < (clusterMembers clusters cnum).length := by
    rw [← hlen]
    exact argminIdx_lt_length _ hcs
  rw [List.getD_eq_getElem _ _ hlt]
  exact List.getElem_mem _

/-- C2 -- For every cluster, the configuration selected as medoid by
`save_clusters_config` is the member whose sum of condensed-matrix distances to
all members of that cluster is minimal (first occurrence on ties, as
`np.argmin` does), computed from the supplied distance matrix with no new
geometric computation (the model reads only `d`); in particular, for a
singleton cluster the medoid is that cluster's only member. -/
theorem saveClustersConfig_medoid_minimizes_distSum
    (clusters : List ℕ) (d : List ℚ) (cnum : ℕ)
    (hne : clusterMembers clusters cnum ≠ []) :
    medoidOf clusters d cnum ∈ clusterMembers clusters cnum
    ∧ (∀ x ∈ clusterMembers clusters cnum,
        memberDistSum clusters d cnum (medoidOf clusters d cnum)
          ≤ memberDistSum clusters d cnum x)
    ∧ (∀ m, clusterMembers clusters cnum = [m] → medoidOf clusters d cnum = m) := by
  have hlen : (colSums clusters d cnum).length = (clusterMembers clusters cnum).length := by
    simp [colSums]
  have hcs : colSums clusters d cnum ≠ [] := by
    simp only [colSums, ne_eq, List.map_eq_nil_iff]
    exact hne
  have hlt : argminIdx (colSums clusters d cnum) < (clusterMembers clusters cnum).length := by
    rw [← hlen]
    exact argminIdx_lt_length _ hcs
  refine ⟨medoidOf_mem clusters d cnum hne, ?_, ?_⟩
  · intro x hx
    obtain ⟨k, hk, rfl⟩ := List.getElem_of_mem hx
    have hk' : k < (colSums clusters d cnum).length := by rw [hlen]; exact hk
    have hmin := argminIdx_min (colSums clusters d cnum) k hk'
    have hgetA : (colSums clusters d cnum).getD (argminIdx (colSums clusters d cnum)) 0
        = memberDistSum clusters d cnum (medoidOf clusters d cnum) := by
      rw [List.getD_eq_getElem _ _ (hlen ▸ hlt)]
      unfold colSums medoidOf
      rw [List.getElem_map, List.getD_eq_getElem _ _ hlt]
      rfl
    have hgetB : (colSums clusters d cnum).getD k 0
        = memberDistSum clusters d cnum ((clusterMembers clusters cnum)[k]) := by
      rw [List.getD_eq_getElem _ _ hk']
      unfold colSums
      rw [List.getElem_map]
    rw [hgetA, hgetB] at hmin
    exact hmin
  · intro m hm
    unfold medoidOf
    rw [hm]
    have : colSums clusters d cnum = [memberDistSum clusters d cnum m] := by
      unfold colSums
      rw [hm]
      simp
    rw [this]
    rfl

/-- Witness for the C2 theorem on a concrete 3-frame trajectory with labels
`[1, 2, 1]` and condensed distances `[4, 1, 2]`: cluster 1 is `{0, 2}` and the
medoid belongs to it. -/
theorem saveClustersConfig_medoid_minimizes_distSum_witness :
    medoidOf [1, 2, 1] [4, 1, 2] 1 ∈ clusterMembers [1, 2, 1] 1
    ∧ memberDistSum [1, 2, 1] [4, 1, 2] 1 (medoidOf [1, 2, 1] [4, 1, 2] 1)
        ≤ memberDistSum [1, 2, 1] [4, 1, 2] 1 2 := by
  have h := saveClustersConfig_medoid_minimizes_distSum [1, 2, 1] [4, 1, 2] 1 (by decide)
  refine ⟨h.1, h.2.1 2 ?_⟩
  decide

/-! ## Per-cluster output file contents (io.py lines 588–665) -/

/-- The sequence of trajectory-frame indices written to the cluster-`cnum`
output file by `save_clusters_config`, with `nframes` frames in the trajectory.
The first loop (lines 605–659) scans the frames, writes the one equal to the
medoid and breaks — since frame indices are distinct this is the filter below;
the second loop (lines 662–818) writes every frame with `mask[idx]` true and
`idx != medoid`, in trajectory order. -/
def writtenFrames (clusters : List ℕ) (d : List ℚ) (cnum nframes : ℕ) : List ℕ :=
  ((List.range nframes).filter (fun i => i == medoidOf clusters d cnum))
  ++ ((List.range nframes).filter (fun i =>
        clusters.getD i 0 == cnum && !(i == medoidOf clusters d cnum)))

lemma filter_beq_range_eq_singleton {m : ℕ} : ∀ {n : ℕ}, m < n →
    (List.range n).filter (fun i => i == m) = [m] := by
  intro n
  induction n with
  | zero => intro h; omega
  | succ t ih =>
    intro hm
    rw [List.range_succ, List.filter_append]
    by_cases h : m < t
    · rw [ih h]
      have : ¬ (t == m) = true := by simp; omega
      simp [this]
    · have hmt : m = t := by omega
      subst hmt
      have h1 : (List.range m).filter (fun i => i == m) = [] := by
        rw [List.filter_eq_nil_iff]
        intro a ha
        have := List.mem_range.mp ha
        simp
        omega
      rw [h1]
      simp

/-- C10 -- For every cluster label `cnum` (from 1 to the maximum label — any
label whose member list is non-empty, as `scipy.cluster.hierarchy.fcluster`
labels are), `save_clusters_config` writes to the cluster-`cnum` output file
exactly the configurations assigned label `cnum`: the medoid first, and every
other member following in increasing trajectory-frame order. -/
theorem saveClustersConfig_cluster_file_contents
    (clusters : List ℕ) (d : List ℚ) (cnum : ℕ)
    (hne : clusterMembers clusters cnum ≠ []) :
    writtenFrames clusters d cnum clusters.length
      = medoidOf clusters d cnum
        :: (clusterMembers clusters cnum).filter
            (fun i => !(i == medoidOf clusters d cnum))
    ∧ (writtenFrames clusters d cnum clusters.length).Perm
        (clusterMembers clusters cnum)
    ∧ List.Sorted (· < ·) (writtenFrames clusters d cnum clusters.length).tail := by
  have hmem := medoidOf_mem clusters d cnum hne
  have hmlt : medoidOf clusters d cnum < clusters.length :=
    (mem_clusterMembers.mp hmem).1
  have hhead : (List.range clusters.length).filter
      (fun i => i == medoidOf clusters d cnum) = [medoidOf clusters d cnum] :=
    filter_beq_range_eq_singleton hmlt
  have htail : (List.range clusters.length).filter
        (fun i => clusters.getD i 0 == cnum && !(i == medoidOf clusters d cnum))
      = (clusterMembers clusters cnum).filter
          (fun i => !(i == medoidOf clusters d cnum)) := by
    unfold clusterMembers
    rw [List.filter_filter]
    apply List.filter_congr
    intro i _
    rw [Bool.and_comm]
  have heq : writtenFrames clusters d cnum clusters.length
      = medoidOf clusters d cnum
        :: (clusterMembers clusters cnum).filter
            (fun i => !(i == medoidOf clusters d cnum)) := by
    unfold writtenFrames
    rw [hhead, htail]
    rfl
  refine ⟨heq, ?_, ?_⟩
  · rw [heq]
    have hnd := clusterMembers_nodup clusters cnum
    have herase : (clusterMembers clusters cnum).filter
          (fun i => !(i == medoidOf clusters d cnum))
        = (clusterMembers clusters cnum).erase (medoidOf clusters d cnum) := by
      rw [hnd.erase_eq_filter]
      apply List.filter_congr
      intro i _
      simp [bne]
    rw [herase]
    exact (List.perm_cons_erase hmem).symm
  · rw [heq]
    show List.Sorted (· < ·) ((clusterMembers clusters cnum).filter
      (fun i => !(i == medoidOf clusters d cnum)))
    apply List.Pairwise.filter
    apply List.Pairwise.filter
    exact List.pairwise_lt_range _

/-- Witness for the C10 theorem on labels `[1, 2, 1]` with condensed distances
`[4, 1, 2]`: the cluster-1 file holds the medoid first, then the remaining
member in frame order, and together they are exactly cluster 1. -/
theorem saveClustersConfig_cluster_file_contents_witness :
    writtenFrames [1, 2, 1] [4, 1, 2] 1 3
      = medoidOf [1, 2, 1] [4, 1, 2] 1
        :: (clusterMembers [1, 2, 1] 1).filter
            (fun i => !(i == medoidOf [1, 2, 1] [4, 1, 2] 1))
    ∧ (writtenFrames [1, 2, 1] [4, 1, 2] 1 3).Perm (clusterMembers [1, 2, 1] 1) := by
  have h := saveClustersConfig_cluster_file_contents [1, 2, 1] [4, 1, 2] 1 (by decide)
  exact ⟨h.1, h.2.1⟩

/-! ## The medoid configuration as written (io.py lines 611–659) -/

/-- `q_all[np.where(q_atoms != 1)]`: the coordinate rows of the non-hydrogen
atoms (atomic number ≠ 1). -/
def selectNonH (as : List ℕ) (xs : List Pt) : List Pt :=
  ((as.zip xs).filter (fun p => p.1 != 1)).map Prod.snd

/-- `len(np.where(as != 1)[0])`: the number of non-hydrogen entries. -/
def countNonH (as : List ℕ) : ℕ :=
  (as.filter (fun a => a != 1)).length

/-- `q_atoms[:nsatoms]` where `nsatoms` models `Optional[int]` with `0` for
`None`: python's `q_atoms[:None]` is the whole array. -/
def sliceToSolute (as : List ℕ) (nsatoms : ℕ) : List ℕ :=
  if nsatoms = 0 then as else as.take nsatoms

/-- Lines 612–645 of io.py: the coordinates written for the medoid
configuration.  `natoms := nsatoms`, replaced under `noh` by the number of
non-hydrogen atoms among `q_atoms[:nsatoms]` (line 618); then the branch
structure of lines 620–638 chooses the subset whose centroid `qcenter` is
taken, and line 645 writes `q_all - qcenter` for every atom. -/
def medoidWritten (q_atoms : List ℕ) (q_all : List Pt) (nsatoms : ℕ) (noh : Bool) : List Pt :=
  let natoms := if noh then countNonH (sliceToSolute q_atoms nsatoms) else nsatoms
  let qcenter :=
    if nsatoms ≠ 0 then
      let Q := if noh then selectNonH q_atoms q_all else q_all
      centroid (Q.take natoms)
    else if noh then
      centroid (selectNonH q_atoms q_all)
    else
      centroid q_all
  q_all.map (fun p => p - qcenter)

/-- The centroid described by the spec: the selected subset is the non-hydrogen
atoms under `noh` (else all atoms); with a solute partition the centroid is
taken over the selected subset of the first `nsatoms` atoms only, else over the
whole selected subset. -/
def specSelected (as : List ℕ) (xs : List Pt) (noh : Bool) : List Pt :=
  if noh then selectNonH as xs else xs

/-- Spec-side companion of `medoidWritten`'s centroid, stated in the spec's
terms for the refinement comparison. -/
def specMedoidCenter (as : List ℕ) (xs : List Pt) (nsatoms : ℕ) (noh : Bool) : Pt :=
  if nsatoms ≠ 0 then
    centroid (specSelected (as.take nsatoms) (xs.take nsatoms) noh)
  else
    centroid (specSelected as xs noh)

lemma selectNonH_cons (a : ℕ) (x : Pt) (as : List ℕ) (xs : List Pt) :
    selectNonH (a :: as) (x :: xs)
      = if a = 1 then selectNonH as xs else x :: selectNonH as xs := by
  by_cases h : a = 1 <;> simp [selectNonH, h]

lemma countNonH_cons (a : ℕ) (as : List ℕ) :
    countNonH (a :: as) = if a = 1 then countNonH as else countNonH as + 1 := by
  by_cases h : a = 1 <;> simp [countNonH, h]

lemma selectNonH_take_comm :
    ∀ (as : List ℕ) (xs : List Pt) (ns : ℕ), as.length = xs.length →
      (selectNonH as xs).take (countNonH (as.take ns))
        = selectNonH (as.take ns) (xs.take ns)
  | [], xs, ns, hlen => by
    have : xs = [] := by
      cases xs with
      | nil => rfl
      | cons y ys => simp at hlen
    subst this
    simp [selectNonH, countNonH]
  | a :: as, xs, ns, hlen => by
    cases xs with
    | nil => simp at hlen
    | cons x xs' =>
      have hlen' : as.length = xs'.length := by simpa using hlen
      cases ns with
      | zero => simp [selectNonH, countNonH]
      | succ k =>
        rw [List.take_succ_cons, List.take_succ_cons, selectNonH_cons,
          countNonH_cons, selectNonH_cons]
        by_cases h : a = 1
        · rw [if_pos h, if_pos h, if_pos h]
          exact selectNonH_take_comm as xs' k hlen'
        · rw [if_neg h, if_neg h, if_neg h, List.take_succ_cons]
          rw [selectNonH_take_comm as xs' k hlen']

/-- C3 -- The medoid configuration is written with its full-atom coordinates
translated by the centroid of its selected subset (solute-only centroid when a
solute partition is defined, else the whole selected subset's centroid) and
with no rotation applied to it: the written list is a pure translation of
`q_all`, so all pairwise difference vectors are preserved. -/
theorem saveClustersConfig_medoid_written_translated_unrotated
    (q_atoms : List ℕ) (q_all : List Pt) (nsatoms : ℕ) (noh : Bool)
    (hlen : q_atoms.length = q_all.length) :
    medoidWritten q_atoms q_all nsatoms noh
      = q_all.map (fun p => p - specMedoidCenter q_atoms q_all nsatoms noh)
    ∧ (∀ i j, i < q_all.length → j < q_all.length →
        (medoidWritten q_atoms q_all nsatoms noh).getD i 0
            - (medoidWritten q_atoms q_all nsatoms noh).getD j 0
          = q_all.getD i 0 - q_all.getD j 0) := by
  have hmain : medoidWritten q_atoms q_all nsatoms noh
      = q_all.map (fun p => p - specMedoidCenter q_atoms q_all nsatoms noh) := by
    unfold medoidWritten specMedoidCenter specSelected
    by_cases hns : nsatoms = 0
    · subst hns
      simp only [ne_eq, not_true_eq_false, if_false, reduceIte]
      cases noh <;> simp
    · simp only [ne_eq, hns, not_false_eq_true, if_true, reduceIte]
      cases noh with
      | false => simp
      | true =>
        simp only [if_true, reduceIte, sliceToSolute, hns, if_neg hns]
        rw [selectNonH_take_comm q_atoms q_all nsatoms hlen]
  refine ⟨hmain, ?_⟩
  intro i j hi hj
  rw [hmain]
  rw [List.getD_eq_getElem _ _ (by simpa using hi), List.getD_eq_getElem _ _ (by simpa using hj)]
  rw [List.getElem_map, List.getElem_map]
  rw [← List.getD_eq_getElem q_all 0 hi, ← List.getD_eq_getElem q_all 0 hj]
  abel

/-- Witness for the C3 theorem on a two-atom configuration with a one-atom
solute partition. -/
theorem saveClustersConfig_medoid_written_translated_unrotated_witness :
    medoidWritten [8, 1] [((1 : ℚ), (0 : ℚ), (0 : ℚ)), (3, 0, 0)] 1 false
      = List.map (fun p => p - specMedoidCenter [8, 1]
          [((1 : ℚ), (0 : ℚ), (0 : ℚ)), (3, 0, 0)] 1 false)
          [((1 : ℚ), (0 : ℚ), (0 : ℚ)), (3, 0, 0)] :=
  (saveClustersConfig_medoid_written_translated_unrotated
    [8, 1] [((1 : ℚ), (0 : ℚ), (0 : ℚ)), (3, 0, 0)] 1 false rfl).1

/-! ## Exclusion recombination in `save_clusters_config`
(io.py lines 708–744 and 759–786)

After reordering a view of the non-excluded atoms, the source splices the
excluded rows back with
`np.insert(Pview, [x - whereins[0].tolist().index(x) for x in whereins[0]], P[excl])`,
where `whereins = np.where(np.isin(np.arange(n), excl))`.  `npInsertGo` models
`np.insert` for a non-decreasing index array (the only form the source
produces): value `v` with index `p` is inserted before original index `p` of
the base list. -/

/-- `np.insert(xs, obj, vals)` for non-decreasing `obj`, with `obj` and `vals`
zipped.  Value `v` at position `p` lands after the first `p` rows of the
remaining base list; the later positions, relative to the original base, are
reduced by the `p` rows just consumed. -/
def npInsertGo {α : Type} : List α → List (ℕ × α) → List α
  | xs, [] => xs
  | xs, (p, v) :: rest =>
    xs.take p ++ v :: npInsertGo (xs.drop p) (rest.map (fun q => (q.1 - p, q.2)))
termination_by _ pvs => pvs.length
decreasing_by
  simp

lemma npInsertGo_nil_right {α : Type} (xs : List α) : npInsertGo xs [] = xs := by
  simp [npInsertGo]

/-- Inserting a value at position `p` splits the base list there; the
remaining insertions continue on the dropped part with positions shifted. -/
lemma npInsertGo_shift {α : Type} (p : ℕ) (pv : List α) (v : α)
    (rest : List (ℕ × α)) (_hp : p ≤ pv.length) :
    npInsertGo pv ((p, v) :: rest)
      = pv.take p ++ v :: npInsertGo (pv.drop p) (rest.map (fun q => (q.1 - p, q.2))) := by
  simp [npInsertGo]

/-- Fancy indexing `xs[p]` with an index array `p` (e.g. `Pview[prr]`). -/
def applyPerm {α : Type} [Inhabited α] (xs : List α) (p : List ℕ) : List α :=
  p.map (fun i => xs.getD i default)

/-- `np.delete(np.arange(n), excl)`: the indices below `n` not listed in
`excl` (deleting positions of `arange(n)` removes the equal values). -/
def nonExclView (n : ℕ) (excl : List ℕ) : List ℕ :=
  (List.range n).filter (fun i => !decide (i ∈ excl))

/-- Lines 725–739 / 778–786 of io.py: splice the rows `P[excl]` back into the
reordered view `pv`:
`whereins = np.where(np.isin(np.arange(n), excl))[0]` and
`np.insert(pv, [x - whereins.tolist().index(x) for x in whereins], P[excl])`. -/
def recombineExcl {α : Type} [Inhabited α] (n : ℕ) (P : List α) (excl : List ℕ)
    (pv : List α) : List α :=
  let whereins := (List.range n).filter (fun i => decide (i ∈ excl))
  let positions := whereins.map (fun x => x - whereins.indexOf x)
  npInsertGo pv (positions.zip (excl.map (fun e => P.getD e default)))

/-- The insertion stream of `recombineExcl` in enumerated form: the `k`-th
excluded index `e` contributes position `e - k` and value `P[e]`. -/
def insData {α : Type} [Inhabited α] (P : List α) : List ℕ → ℕ → List (ℕ × α)
  | [], _ => []
  | e :: es, k => (e - k, P.getD e default) :: insData P es (k + 1)

/-- The number of non-excluded indices below `i`: the slot an atom at
non-excluded index `i` occupies in the reordering view. -/
def rankNonExcl (excl : List ℕ) (i : ℕ) : ℕ :=
  ((List.range i).filter (fun j => !decide (j ∈ excl))).length

/-- `np.unique`: the distinct values in ascending order. -/
def npUnique (xs : List ℕ) : List ℕ :=
  (List.range (xs.foldr max 0 + 1)).filter (fun i => decide (i ∈ xs))

lemma getD_drop {α : Type} (l : List α) (m i : ℕ) (d : α) :
    (l.drop m).getD i d = l.getD (m + i) d := by
  by_cases h : m + i < l.length
  · have h' : i < (l.drop m).length := by
      rw [List.length_drop]
      omega
    rw [List.getD_eq_getElem _ _ h', List.getD_eq_getElem _ _ h, List.getElem_drop]
  · have h1 : l.length ≤ m + i := by omega
    have h2 : (l.drop m).length ≤ i := by
      rw [List.length_drop]
      omega
    rw [List.getD_eq_default _ _ h2, List.getD_eq_default _ _ h1]

lemma map_getD_range_take {α : Type} (l : List α) (d : α) :
    ∀ k, k ≤ l.length → (List.range k).map (fun i => l.getD i d) = l.take k := by
  intro k
  induction k with
  | zero => intro _; simp
  | succ t ih =>
    intro hk
    have ht : t < l.length := by omega
    rw [List.range_succ, List.map_append, ih (by omega), List.take_succ,
      List.getElem?_eq_getElem ht]
    simp only [List.map_cons, List.map_nil, Option.toList_some]
    congr 1
    simp [List.getElem?_eq_getElem ht]

lemma insData_length {α : Type} [Inhabited α] (P : List α) :
    ∀ (es : List ℕ) (k : ℕ), (insData P es k).length = es.length
  | [], _ => rfl
  | _ :: es, k => by
    simp [insData, insData_length P es (k + 1)]

/-- Shifting the whole problem past the first excluded index: dropping `c + 1`
rows of `P` and subtracting `c + 1` from the remaining excluded indices turns
the tail insertion stream (positions already reduced by `c`) into the stream
of the shifted problem. -/
lemma insData_shiftMap {α : Type} [Inhabited α] (P : List α) (c : ℕ) :
    ∀ (es : List ℕ) (t : ℕ), (∀ e ∈ es, c + 1 ≤ e) →
      (insData P es (t + 1)).map (fun q => (q.1 - c, q.2))
        = insData (P.drop (c + 1)) (es.map (fun e => e - (c + 1))) t
  | [], _, _ => rfl
  | e :: es, t, hes => by
    have he : c + 1 ≤ e := hes e (List.mem_cons_self e es)
    simp only [insData, List.map_cons]
    have h1 : e - (t + 1) - c = e - (c + 1) - t := by omega
    have h2 : (P.drop (c + 1)).getD (e - (c + 1)) default = P.getD e default := by
      rw [getD_drop]
      congr 1
      omega
    rw [h1, h2,
      insData_shiftMap P c es (t + 1) (fun x hx => hes x (List.mem_cons_of_mem _ hx))]

lemma sorted_map_sub {e₀ : ℕ} {excl' : List ℕ}
    (hs : List.Sorted (· < ·) (e₀ :: excl')) :
    List.Sorted (· < ·) (excl'.map (fun e => e - (e₀ + 1))) := by
  have hge : ∀ b ∈ excl', e₀ + 1 ≤ b := by
    intro b hb
    exact List.rel_of_sorted_cons hs b hb
  rw [List.Sorted, List.pairwise_map]
  refine (hs.of_cons).imp_of_mem ?_
  intro a b ha hb hab
  have := hge a ha
  omega

lemma mem_map_sub_iff {e₀ : ℕ} {excl' : List ℕ}
    (hs : List.Sorted (· < ·) (e₀ :: excl')) (t : ℕ) :
    t ∈ excl'.map (fun e => e - (e₀ + 1)) ↔ (e₀ + 1 + t) ∈ excl' := by
  have hge : ∀ b ∈ excl', e₀ + 1 ≤ b := fun b hb => List.rel_of_sorted_cons hs b hb
  constructor
  · rintro hmem
    rcases List.mem_map.mp hmem with ⟨e, he, rfl⟩
    have := hge e he
    have : e₀ + 1 + (e - (e₀ + 1)) = e := by omega
    rw [this]
    exact he
  · intro hmem
    exact List.mem_map.mpr ⟨e₀ + 1 + t, hmem, by omega⟩

lemma sorted_cons_bound : ∀ (excl' : List ℕ) {e₀ n : ℕ},
    List.Sorted (· < ·) (e₀ :: excl') → (∀ e ∈ e₀ :: excl', e < n) →
    e₀ + excl'.length < n
  | [], e₀, n, _, hr => by
    simpa using hr e₀ (List.mem_cons_self _ _)
  | e₁ :: rest, e₀, n, hs, hr => by
    have h01 : e₀ < e₁ := (List.sorted_cons.mp hs).1 e₁ (List.mem_cons_self _ _)
    have hs' : List.Sorted (· < ·) (e₁ :: rest) := hs.of_cons
    have hr' : ∀ e ∈ e₁ :: rest, e < n := fun e he => hr e (List.mem_cons_of_mem _ he)
    have := sorted_cons_bound rest hs' hr'
    simp only [List.length_cons]
    omega

lemma rankNonExcl_nil (i : ℕ) : rankNonExcl [] i = i := by
  simp [rankNonExcl]

lemma rankNonExcl_below {e₀ : ℕ} {excl' : List ℕ}
    (hs : List.Sorted (· < ·) (e₀ :: excl')) {i : ℕ} (hi : i ≤ e₀) :
    rankNonExcl (e₀ :: excl') i = i := by
  unfold rankNonExcl
  have hfil : (List.range i).filter (fun j => !decide (j ∈ e₀ :: excl'))
      = List.range i := by
    rw [List.filter_eq_self]
    intro j hj
    have hj' : j < i := List.mem_range.mp hj
    have hj0 : j ≠ e₀ := by omega
    have hj1 : j ∉ excl' := by
      intro hmem
      have := List.rel_of_sorted_cons hs j hmem
      omega
    simp [hj0, hj1]
  rw [hfil, List.length_range]

lemma rankNonExcl_shift {e₀ : ℕ} {excl' : List ℕ}
    (hs : List.Sorted (· < ·) (e₀ :: excl')) (j : ℕ) :
    rankNonExcl (e₀ :: excl') (e₀ + 1 + j)
      = e₀ + rankNonExcl (excl'.map (fun e => e - (e₀ + 1))) j := by
  unfold rankNonExcl
  rw [List.range_add, List.filter_append, List.length_append]
  congr 1
  · rw [List.range_succ, List.filter_append, List.length_append]
    have h1 : (List.range e₀).filter (fun j => !decide (j ∈ e₀ :: excl'))
        = List.range e₀ := by
      rw [List.filter_eq_self]
      intro t ht
      have ht' : t < e₀ := List.mem_range.mp ht
      have ht0 : t ≠ e₀ := by omega
      have ht1 : t ∉ excl' := by
        intro hmem
        have := List.rel_of_sorted_cons hs t hmem
        omega
      simp [ht0, ht1]
    have h2 : [e₀].filter (fun j => !decide (j ∈ e₀ :: excl')) = [] := by
      simp
    rw [h1, h2, List.length_range]
    rfl
  · rw [List.filter_map, List.length_map]
    apply congrArg
    apply List.filter_congr
    intro t _
    have hmem : (e₀ + 1 + t) ∈ e₀ :: excl' ↔ t ∈ excl'.map (fun e => e - (e₀ + 1)) := by
      rw [List.mem_cons, ← mem_map_sub_iff hs t]
      constructor
      · rintro (h | h)
        · omega
        · exact h
      · exact Or.inr
    simp only [Function.comp_apply]
    by_cases h : (e₀ + 1 + t) ∈ e₀ :: excl'
    · simp [h, hmem.mp h]
    · have hnot : t ∉ excl'.map (fun e => e - (e₀ + 1)) := fun hc => h (hmem.mpr hc)
      simp [h, hnot]

lemma sorted_filter_range {excl : List ℕ} {n : ℕ}
    (hs : List.Sorted (· < ·) excl) (hr : ∀ e ∈ excl, e < n) :
    (List.range n).filter (fun i => decide (i ∈ excl)) = excl := by
  have hnd1 : ((List.range n).filter (fun i => decide (i ∈ excl))).Nodup :=
    (List.nodup_range n).filter _
  have hnd2 : excl.Nodup := hs.nodup
  have hperm : ((List.range n).filter (fun i => decide (i ∈ excl))).Perm excl := by
    rw [List.perm_ext_iff_of_nodup hnd1 hnd2]
    intro a
    simp only [List.mem_filter, List.mem_range, decide_eq_true_eq]
    exact ⟨fun h => h.2, fun h => ⟨hr a h, h⟩⟩
  have hsort1 : List.Sorted (· ≤ ·) ((List.range n).filter (fun i => decide (i ∈ excl))) :=
    ((List.pairwise_lt_range n).filter _).imp le_of_lt
  have hsort2 : List.Sorted (· ≤ ·) excl := hs.imp le_of_lt
  exact List.eq_of_perm_of_sorted hperm hsort1 hsort2

lemma insData_getElem {α : Type} [Inhabited α] (P : List α) :
    ∀ (es : List ℕ) (t k : ℕ) (hk : k < (insData P es t).length),
      (insData P es t)[k] = (es.getD k 0 - (t + k), P.getD (es.getD k 0) default)
  | [], t, k, hk => by simp [insData] at hk
  | e :: es, t, 0, hk => by simp [insData]
  | e :: es, t, (k + 1), hk => by
    have hk' : k < (insData P es (t + 1)).length := by
      simpa [insData] using hk
    show (insData P es (t + 1))[k] = _
    rw [insData_getElem P es (t + 1) k hk']
    simp only [List.getD_cons_succ]
    congr 2
    omega

lemma recombineExcl_eq_insData {α : Type} [Inhabited α] (n : ℕ) (P : List α)
    (excl : List ℕ) (pv : List α)
    (hs : List.Sorted (· < ·) excl) (hr : ∀ e ∈ excl, e < n) :
    recombineExcl n P excl pv = npInsertGo pv (insData P excl 0) := by
  have hzip : (excl.map (fun x => x - excl.indexOf x)).zip
      (excl.map (fun e => P.getD e default)) = insData P excl 0 := by
    apply List.ext_getElem
    · simp [List.length_zip, insData_length]
    · intro k h1 h2
      have hk : k < excl.length := by
        simpa [List.length_zip] using h1
      rw [List.getElem_zip, insData_getElem]
      simp only [List.getElem_map]
      have hidx : excl.indexOf excl[k] = k := List.indexOf_getElem hs.nodup k hk
      rw [hidx]
      have hgd : excl.getD k 0 = excl[k] := List.getD_eq_getElem excl 0 hk
      rw [hgd]
      simp
  unfold recombineExcl
  rw [sorted_filter_range hs hr]
  show npInsertGo pv ((excl.map (fun x => x - excl.indexOf x)).zip
      (excl.map (fun e => P.getD e default))) = npInsertGo pv (insData P excl 0)
  rw [hzip]

/-- The recombination characterization: inserting the rows `P[excl]` of a
sorted in-range exclusion list back into the view `pv` yields the array whose
entry at an excluded index `i` is `P[i]` and whose entry at a non-excluded
index is the corresponding view row. -/
lemma npInsertGo_insData_spec {α : Type} [Inhabited α] :
    ∀ (m : ℕ) (excl : List ℕ) (P pv : List α) (n : ℕ),
      excl.length = m →
      List.Sorted (· < ·) excl → (∀ e ∈ excl, e < n) → n ≤ P.length →
      pv.length + excl.length = n →
      npInsertGo pv (insData P excl 0)
        = (List.range n).map (fun i =>
            if i ∈ excl then P.getD i default
            else pv.getD (rankNonExcl excl i) default) := by
  intro m
  induction m with
  | zero =>
    intro excl P pv n hm hs hr hP hlen
    have hnil : excl = [] := List.length_eq_zero.mp hm
    subst hnil
    have hn : pv.length = n := by simpa using hlen
    subst hn
    rw [show insData P ([] : List ℕ) 0 = [] from rfl, npInsertGo_nil_right]
    simp only [List.not_mem_nil, if_false, rankNonExcl_nil]
    rw [map_getD_range_take pv default pv.length le_rfl, List.take_length]
  | succ t ih =>
    intro excl P pv n hm hs hr hP hlen
    cases excl with
    | nil => simp at hm
    | cons e₀ excl' =>
      simp only [List.length_cons] at hm hlen
      have hm' : excl'.length = t := by omega
      have hge : ∀ b ∈ excl', e₀ + 1 ≤ b := fun b hb => List.rel_of_sorted_cons hs b hb
      have hbound : e₀ + excl'.length < n := sorted_cons_bound excl' hs hr
      have he₀pv : e₀ ≤ pv.length := by omega
      have he₀n : e₀ < n := hr e₀ (List.mem_cons_self _ _)
      have hL1 : insData P (e₀ :: excl') 0 = (e₀, P.getD e₀ default) :: insData P excl' 1 := by
        simp [insData]
      rw [hL1, npInsertGo_shift e₀ pv (P.getD e₀ default) (insData P excl' 1) he₀pv]
      have hshift := insData_shiftMap P e₀ excl' 0 hge
      simp only [Nat.zero_add] at hshift
      rw [hshift]
      have hIH := ih (excl'.map (fun e => e - (e₀ + 1))) (P.drop (e₀ + 1)) (pv.drop e₀)
        (n - (e₀ + 1))
        (by rw [List.length_map]; exact hm')
        (sorted_map_sub hs)
        (by
          intro e he
          rcases List.mem_map.mp he with ⟨x, hx, rfl⟩
          have h1 := hge x hx
          have h2 := hr x (List.mem_cons_of_mem _ hx)
          omega)
        (by rw [List.length_drop]; omega)
        (by rw [List.length_drop, List.length_map]; omega)
      rw [hIH]
      have hA : (List.range (e₀ + 1)).map (fun i =>
            if i ∈ e₀ :: excl' then P.getD i default
            else pv.getD (rankNonExcl (e₀ :: excl') i) default)
          = pv.take e₀ ++ [P.getD e₀ default] := by
        rw [List.range_succ, List.map_append]
        congr 1
        · have hcong : ∀ i ∈ List.range e₀,
              (if i ∈ e₀ :: excl' then P.getD i default
               else pv.getD (rankNonExcl (e₀ :: excl') i) default)
              = pv.getD i default := by
            intro i hi
            have hi' : i < e₀ := List.mem_range.mp hi
            have hni : i ∉ e₀ :: excl' := by
              simp only [List.mem_cons]
              push_neg
              refine ⟨by omega, fun hmem => ?_⟩
              have := hge i hmem
              omega
            rw [if_neg hni, rankNonExcl_below hs (le_of_lt hi')]
          rw [List.map_congr_left hcong, map_getD_range_take pv default e₀ he₀pv]
        · have hm0 : e₀ ∈ e₀ :: excl' := List.mem_cons_self _ _
          simp [hm0]
      have hB : ((List.range (n - (e₀ + 1))).map (fun x => (e₀ + 1) + x)).map
            (fun i => if i ∈ e₀ :: excl' then P.getD i default
              else pv.getD (rankNonExcl (e₀ :: excl') i) default)
          = (List.range (n - (e₀ + 1))).map (fun i =>
              if i ∈ excl'.map (fun e => e - (e₀ + 1)) then (P.drop (e₀ + 1)).getD i default
              else (pv.drop e₀).getD
                (rankNonExcl (excl'.map (fun e => e - (e₀ + 1))) i) default) := by
        rw [List.map_map]
        apply List.map_congr_left
        intro j _
        simp only [Function.comp_apply]
        by_cases hmem : (e₀ + 1 + j) ∈ e₀ :: excl'
        · have hj' : j ∈ excl'.map (fun e => e - (e₀ + 1)) := by
            rw [mem_map_sub_iff hs]
            rcases List.mem_cons.mp hmem with h | h
            · omega
            · exact h
          rw [if_pos hmem, if_pos hj', getD_drop]
        · have hj' : j ∉ excl'.map (fun e => e - (e₀ + 1)) := by
            intro hc
            exact hmem (List.mem_cons_of_mem _ ((mem_map_sub_iff hs j).mp hc))
          rw [if_neg hmem, if_neg hj', getD_drop, rankNonExcl_shift hs j]
      conv_rhs => rw [show n = (e₀ + 1) + (n - (e₀ + 1)) from by omega]
      rw [List.range_add, List.map_append, hA, hB]
      simp

lemma recombineExcl_spec {α : Type} [Inhabited α] (n : ℕ) (P pv : List α)
    (excl : List ℕ)
    (hs : List.Sorted (· < ·) excl) (hr : ∀ e ∈ excl, e < n) (hP : n ≤ P.length)
    (hlen : pv.length + excl.length = n) :
    recombineExcl n P excl pv
      = (List.range n).map (fun i =>
          if i ∈ excl then P.getD i default
          else pv.getD (rankNonExcl excl i) default) := by
  rw [recombineExcl_eq_insData n P excl pv hs hr]
  exact npInsertGo_insData_spec excl.length excl P pv n rfl hs hr hP hlen

lemma nonExclView_length (n : ℕ) (excl : List ℕ)
    (hs : List.Sorted (· < ·) excl) (hr : ∀ e ∈ excl, e < n) :
    (nonExclView n excl).length = n - excl.length := by
  have h := @List.length_eq_length_filter_add ℕ
    (List.range n) (fun i => decide (i ∈ excl))
  rw [List.length_range, sorted_filter_range hs hr] at h
  unfold nonExclView
  omega

lemma filter_range_lt (p : ℕ → Bool) {n i : ℕ} (hi : i ≤ n) :
    (List.range i).filter p
      = ((List.range n).filter p).filter (fun y => decide (y < i)) := by
  conv_rhs => rw [show n = i + (n - i) from by omega]
  rw [List.range_add, List.filter_append, List.filter_append]
  have h1 : ((List.range i).filter p).filter (fun y => decide (y < i))
      = (List.range i).filter p := by
    rw [List.filter_eq_self]
    intro a ha
    have := List.mem_range.mp (List.mem_filter.mp ha).1
    simpa using this
  have h2 : (((List.range (n - i)).map (fun x => i + x)).filter p).filter
      (fun y => decide (y < i)) = [] := by
    rw [List.filter_eq_nil_iff]
    intro a ha
    have ha' := (List.mem_filter.mp ha).1
    rcases List.mem_map.mp ha' with ⟨x, _, rfl⟩
    simp
  rw [h1, h2, List.append_nil]

lemma sorted_filter_lt_getElem :
    ∀ (l : List ℕ), List.Sorted (· < ·) l → ∀ k (hk : k < l.length),
      l.filter (fun y => decide (y < l[k])) = l.take k
  | [], _, k, hk => by simp at hk
  | x :: xs, hs, 0, hk => by
    simp only [List.getElem_cons_zero, List.take_zero]
    rw [List.filter_eq_nil_iff]
    intro a ha
    rcases List.mem_cons.mp ha with rfl | hmem
    · simp
    · have := List.rel_of_sorted_cons hs a hmem
      simp
      omega
  | x :: xs, hs, (k + 1), hk => by
    have hk' : k < xs.length := by simpa using hk
    simp only [List.getElem_cons_succ, List.take_succ_cons]
    rw [List.filter_cons]
    have hx : x < xs[k] :=
      List.rel_of_sorted_cons hs xs[k] (List.getElem_mem _)
    rw [if_pos (by simpa using hx)]
    rw [sorted_filter_lt_getElem xs hs.of_cons k hk']

lemma rank_nonExclView (excl : List ℕ) (n k : ℕ)
    (hk : k < (nonExclView n excl).length) :
    rankNonExcl excl ((nonExclView n excl)[k]) = k := by
  have hsv : List.Sorted (· < ·) (nonExclView n excl) :=
    (List.pairwise_lt_range n).filter _
  have hvn : (nonExclView n excl)[k] ≤ n := by
    have := (List.mem_filter.mp (List.getElem_mem hk)).1
    exact le_of_lt (List.mem_range.mp this)
  unfold rankNonExcl
  rw [filter_range_lt (fun j => !decide (j ∈ excl)) hvn]
  show ((nonExclView n excl).filter _).length = k
  rw [sorted_filter_lt_getElem (nonExclView n excl) hsv k hk]
  rw [List.length_take]
  omega

lemma le_foldr_max : ∀ (xs : List ℕ), ∀ x ∈ xs, x ≤ xs.foldr max 0
  | [], x, hx => by simp at hx
  | y :: ys, x, hx => by
    rcases List.mem_cons.mp hx with rfl | hmem
    · exact le_max_left _ _
    · exact le_trans (le_foldr_max ys x hmem) (le_max_right _ _)

lemma mem_npUnique {xs : List ℕ} {i : ℕ} : i ∈ npUnique xs ↔ i ∈ xs := by
  simp only [npUnique, List.mem_filter, List.mem_range, decide_eq_true_eq]
  exact ⟨fun h => h.2, fun h => ⟨by have := le_foldr_max xs i h; omega, h⟩⟩

lemma npUnique_sorted (xs : List ℕ) : List.Sorted (· < ·) (npUnique xs) :=
  (List.pairwise_lt_range _).filter _

/-- The pluggable reorder kernel of the external `rmsd` package:
`reorder(Qa, Pa, Q, P)` returns a permutation of `P`'s row indices. -/
abbrev ReorderFn (α : Type) : Type :=
  List ℕ → List ℕ → List α → List α → List ℕ

/-- Lines 709–744 of io.py (the solute-atom reorder under `if reorder and not
reorder_solvent_only`): reorder the non-excluded solute rows and splice the
excluded rows back, leaving the solvent part `P[natoms:]` untouched.
`soluexcl = np.where(reorderexcl < natoms)`;
`soluteview = np.delete(np.arange(natoms), reorderexcl[soluexcl])`;
`prr = reorder(Qa[soluteview], Pa[soluteview][prr-order], ...)`;
`whereins = np.where(np.isin(np.arange(natoms), reorderexcl))`;
`Psolu = np.insert(Pview[prr], [x - whereins.index(x) for x in whereins],
P[reorderexcl[soluexcl]])`; finally `P = concat(Psolu, P[natoms:])` and the
same splice for the atomic numbers `Pa`. -/
def soluteReorderStep {α : Type} [Inhabited α] (reorderFn : ReorderFn α)
    (natoms : ℕ) (reorderexcl : List ℕ) (Qa : List ℕ) (Q : List α)
    (Pa : List ℕ) (P : List α) : List α × List ℕ :=
  let soluexcl := reorderexcl.filter (fun e => decide (e < natoms))
  let soluteview := (List.range natoms).filter (fun i => !decide (i ∈ soluexcl))
  let Pview := soluteview.map (fun i => P.getD i default)
  let Paview := soluteview.map (fun i => Pa.getD i 0)
  let prr := reorderFn (soluteview.map (fun i => Qa.getD i 0)) Paview
    (soluteview.map (fun i => Q.getD i default)) Pview
  let whereins := (List.range natoms).filter (fun i => decide (i ∈ reorderexcl))
  let positions := whereins.map (fun x => x - whereins.indexOf x)
  let Psolu := npInsertGo (applyPerm Pview prr)
    (positions.zip (soluexcl.map (fun e => P.getD e default)))
  let Pasolu := npInsertGo (applyPerm Paview prr)
    (positions.zip (soluexcl.map (fun e => Pa.getD e 0)))
  (Psolu ++ P.drop natoms, Pasolu ++ Pa.drop natoms)

/-- Lines 762–767 of io.py: the exclusion set of the separate solvent reorder —
the whole solute plus the user exclusions when a solute partition is defined
(`np.unique` sorts and deduplicates), else the raw user exclusions. -/
def solventExclusions (nsatoms natoms : ℕ) (reorderexcl : List ℕ) : List ℕ :=
  if nsatoms ≠ 0 then npUnique (List.range natoms ++ reorderexcl) else reorderexcl

/-- Lines 759–786 of io.py (the solvent reorder under `if reorder:`): reorder
the view without the excluded atoms and splice the excluded rows back
(`view = np.delete(np.arange(len(P)), exclusions)`, then the same
`np.insert` recombination as the solute branch, over the whole array). -/
def solventReorderStep {α : Type} [Inhabited α] (reorderFn : ReorderFn α)
    (nsatoms natoms : ℕ) (reorderexcl : List ℕ) (Qa : List ℕ) (Q : List α)
    (Pa : List ℕ) (P : List α) : List α :=
  let exclusions := solventExclusions nsatoms natoms reorderexcl
  let view := (List.range P.length).filter (fun i => !decide (i ∈ exclusions))
  let Pview := view.map (fun i => P.getD i default)
  let Paview := view.map (fun i => Pa.getD i 0)
  let prr := reorderFn (view.map (fun i => Qa.getD i 0)) Paview
    (view.map (fun i => Q.getD i default)) Pview
  recombineExcl P.length P exclusions (applyPerm Pview prr)

/-- C1 (amended) -- For every reorder call in `save_clusters_config` whose
exclusion index list, as used by the call, is strictly increasing — which the
solvent branch under a solute partition always guarantees (`np.unique` sorts
its exclusion set) and which holds for the solute branch exactly when the user
exclusion list is ascending — the recombined coordinate array places each
excluded atom back at its original index and places the reordered non-excluded
atoms, in permuted order, in the remaining positions.  (With an unsorted user
exclusion list the source instead pairs the sorted insertion slots with the
user-ordered excluded rows; see the counterexample.) -/
theorem saveClustersConfig_recombination_places_atoms {α : Type} [Inhabited α]
    (n : ℕ) (P pv : List α) (excl : List ℕ)
    (hs : List.Sorted (· < ·) excl) (hr : ∀ e ∈ excl, e < n)
    (hP : n ≤ P.length) (hlen : pv.length + excl.length = n) :
    (recombineExcl n P excl pv).length = n
    ∧ (∀ i ∈ excl, (recombineExcl n P excl pv).getD i default = P.getD i default)
    ∧ (∀ k, (hk : k < (nonExclView n excl).length) →
        (recombineExcl n P excl pv).getD ((nonExclView n excl)[k]) default
          = pv.getD k default) := by
  have hspec := recombineExcl_spec n P pv excl hs hr hP hlen
  refine ⟨?_, ?_, ?_⟩
  · rw [hspec]
    simp
  · intro i hi
    have hin : i < n := hr i hi
    rw [hspec, List.getD_eq_getElem _ _ (by simpa using hin)]
    simp only [List.getElem_map, List.getElem_range]
    rw [if_pos hi]
  · intro k hk
    have hvmem := List.getElem_mem hk
    have hv_lt : (nonExclView n excl)[k] < n := by
      have := (List.mem_filter.mp hvmem).1
      exact List.mem_range.mp this
    have hv_not : (nonExclView n excl)[k] ∉ excl := by
      have := (List.mem_filter.mp hvmem).2
      simpa using this
    rw [hspec, List.getD_eq_getElem _ _ (by simpa using hv_lt)]
    simp only [List.getElem_map, List.getElem_range]
    rw [if_neg hv_not, rank_nonExclView excl n k hk]

/-- Witness for the amended C1 theorem at `n = 4`, `P = [10, 20, 30, 40]`,
sorted exclusions `[1, 3]` and view `[30, 10]`. -/
theorem saveClustersConfig_recombination_places_atoms_witness :
    (recombineExcl 4 ([10, 20, 30, 40] : List ℤ) [1, 3] [30, 10]).length = 4
    ∧ (recombineExcl 4 ([10, 20, 30, 40] : List ℤ) [1, 3] [30, 10]).getD 1 default
        = ([10, 20, 30, 40] : List ℤ).getD 1 default
    ∧ (recombineExcl 4 ([10, 20, 30, 40] : List ℤ) [1, 3] [30, 10]).getD
          ((nonExclView 4 [1, 3]).get ⟨0, by decide⟩) default
        = ([30, 10] : List ℤ).getD 0 default := by
  have h := saveClustersConfig_recombination_places_atoms 4
    ([10, 20, 30, 40] : List ℤ) [30, 10] [1, 3]
    (by decide) (by decide) (by decide) (by decide)
  exact ⟨h.1, h.2.1 1 (by decide), h.2.2 0 (by decide)⟩

/-- C1 counterexample: the solute branch with the unsorted user exclusion list
`[3, 1]` (0-based, i.e. `-eex 4 2`), `natoms = 4` and the identity reorder
permutation sends `P = [10, 20, 30, 40]` to `[10, 40, 30, 20]`: the atom
excluded at index 1 ends up at index 3 instead of staying at its original
index. -/
theorem saveClustersConfig_recombination_counterexample :
    (soluteReorderStep (fun _ _ _ _ => [0, 1]) 4 [3, 1]
        [0, 0, 0, 0] ([0, 0, 0, 0] : List ℤ) [0, 0, 0, 0] [10, 20, 30, 40]).1
      = [10, 40, 30, 20]
    ∧ ((soluteReorderStep (fun _ _ _ _ => [0, 1]) 4 [3, 1]
        [0, 0, 0, 0] ([0, 0, 0, 0] : List ℤ) [0, 0, 0, 0] [10, 20, 30, 40]).1).getD 1 default
      ≠ ([10, 20, 30, 40] : List ℤ).getD 1 default := by
  have heval : (soluteReorderStep (fun _ _ _ _ => [0, 1]) 4 [3, 1]
      [0, 0, 0, 0] ([0, 0, 0, 0] : List ℤ) [0, 0, 0, 0] [10, 20, 30, 40]).1
      = [10, 40, 30, 20] := by
    simp [soluteReorderStep, applyPerm, npInsertGo, List.range_succ]
  refine ⟨heval, ?_⟩
  rw [heval]
  decide

lemma recombineExcl_getD_of_mem {α : Type} [Inhabited α] {n : ℕ}
    {P pv : List α} {excl : List ℕ}
    (hs : List.Sorted (· < ·) excl) (hr : ∀ e ∈ excl, e < n)
    (hP : n ≤ P.length) (hlen : pv.length + excl.length = n)
    {i : ℕ} (hi : i ∈ excl) :
    (recombineExcl n P excl pv).getD i default = P.getD i default := by
  have hin : i < n := hr i hi
  rw [recombineExcl_spec n P pv excl hs hr hP hlen,
    List.getD_eq_getElem _ _ (by simpa using hin)]
  simp only [List.getElem_map, List.getElem_range]
  rw [if_pos hi]

lemma recombineExcl_getD_of_view {α : Type} [Inhabited α] {n : ℕ}
    {P pv : List α} {excl : List ℕ}
    (hs : List.Sorted (· < ·) excl) (hr : ∀ e ∈ excl, e < n)
    (hP : n ≤ P.length) (hlen : pv.length + excl.length = n)
    (k : ℕ) (hk : k < (nonExclView n excl).length) :
    (recombineExcl n P excl pv).getD ((nonExclView n excl)[k]) default
      = pv.getD k default := by
  have hvmem := List.getElem_mem hk
  have hv_lt : (nonExclView n excl)[k] < n := by
    have := (List.mem_filter.mp hvmem).1
    exact List.mem_range.mp this
  have hv_not : (nonExclView n excl)[k] ∉ excl := by
    have := (List.mem_filter.mp hvmem).2
    simpa using this
  rw [recombineExcl_spec n P pv excl hs hr hP hlen,
    List.getD_eq_getElem _ _ (by simpa using hv_lt)]
  simp only [List.getElem_map, List.getElem_range]
  rw [if_neg hv_not, rank_nonExclView excl n k hk]

/-- The abstract Kabsch kernel: `U = rmsd.kabsch(A, B)` followed by the
row-wise product `np.dot(·, U)` is modelled as a row map chosen from `A, B`. -/
abbrev KabschFn (α : Type) : Type := List α → List α → (α → α)

/-- Lines 708–788 of io.py for a member configuration under a solute partition
(`nsatoms` truthy): the solute reorder step with its re-superposition
(`U = rmsd.kabsch(P[:natoms], Q[:natoms]); P = np.dot(P, U)`, lines 746–751)
runs exactly when `reorder and not reorder_solvent_only`; the separate solvent
reorder (lines 759–786) runs when `reorder`. -/
def reorderStage {α : Type} [Inhabited α] (reorderFn : ReorderFn α)
    (kabschFn : KabschFn α) (reorder reorder_solvent_only : Bool)
    (nsatoms natoms : ℕ) (reorderexcl : List ℕ) (Qa : List ℕ) (Q : List α)
    (Pa : List ℕ) (P : List α) : List α :=
  let step1 :=
    if reorder && !reorder_solvent_only then
      let PPa := soluteReorderStep reorderFn natoms reorderexcl Qa Q Pa P
      (PPa.1.map (kabschFn (PPa.1.take natoms) (Q.take natoms)), PPa.2)
    else (P, Pa)
  if reorder then
    solventReorderStep reorderFn nsatoms natoms reorderexcl Qa Q step1.2 step1.1
  else step1.1

lemma solventExclusions_sorted (nsatoms natoms : ℕ) (reorderexcl : List ℕ)
    (hns : nsatoms ≠ 0) :
    List.Sorted (· < ·) (solventExclusions nsatoms natoms reorderexcl) := by
  unfold solventExclusions
  rw [if_pos hns]
  exact npUnique_sorted _

lemma solventExclusions_lt {nsatoms natoms : ℕ} {reorderexcl : List ℕ} {m : ℕ}
    (hns : nsatoms ≠ 0) (hnat : natoms ≤ m) (hexcl : ∀ e ∈ reorderexcl, e < m) :
    ∀ e ∈ solventExclusions nsatoms natoms reorderexcl, e < m := by
  intro e he
  unfold solventExclusions at he
  rw [if_pos hns] at he
  rcases List.mem_append.mp (mem_npUnique.mp he) with h | h
  · have := List.mem_range.mp h
    omega
  · exact hexcl e h

lemma mem_solventExclusions_of_lt_natoms {nsatoms natoms : ℕ}
    {reorderexcl : List ℕ} (hns : nsatoms ≠ 0) {i : ℕ} (hi : i < natoms) :
    i ∈ solventExclusions nsatoms natoms reorderexcl := by
  unfold solventExclusions
  rw [if_pos hns]
  exact mem_npUnique.mpr (List.mem_append.mpr (Or.inl (List.mem_range.mpr hi)))

lemma mem_solventExclusions_of_excl {nsatoms natoms : ℕ}
    {reorderexcl : List ℕ} (hns : nsatoms ≠ 0) {i : ℕ} (hi : i ∈ reorderexcl) :
    i ∈ solventExclusions nsatoms natoms reorderexcl := by
  unfold solventExclusions
  rw [if_pos hns]
  exact mem_npUnique.mpr (List.mem_append.mpr (Or.inr hi))

/-- `solventReorderStep` written out as the shared recombination applied to
the reordered solvent view. -/
lemma solventReorderStep_eq {α : Type} [Inhabited α] (reorderFn : ReorderFn α)
    (nsatoms natoms : ℕ) (reorderexcl : List ℕ) (Qa : List ℕ) (Q : List α)
    (Pa : List ℕ) (P : List α) :
    solventReorderStep reorderFn nsatoms natoms reorderexcl Qa Q Pa P
      = recombineExcl P.length P (solventExclusions nsatoms natoms reorderexcl)
          (applyPerm
            ((nonExclView P.length (solventExclusions nsatoms natoms reorderexcl)).map
              (fun i => P.getD i default))
            (reorderFn
              ((nonExclView P.length (solventExclusions nsatoms natoms reorderexcl)).map
                (fun i => Qa.getD i 0))
              ((nonExclView P.length (solventExclusions nsatoms natoms reorderexcl)).map
                (fun i => Pa.getD i 0))
              ((nonExclView P.length (solventExclusions nsatoms natoms reorderexcl)).map
                (fun i => Q.getD i default))
              ((nonExclView P.length (solventExclusions nsatoms natoms reorderexcl)).map
                (fun i => P.getD i default)))) := rfl

/-- C4 -- When reordering is requested and a solute partition is defined, the
solute-atom reorder step is performed exactly when `reorder_solvent_only` is
false, and the separate solvent-atom reorder step is performed in both cases;
with `reorder_solvent_only` true, only solvent atoms are permuted: every solute
atom (and every excluded atom) keeps its original index, and the non-excluded
solvent positions carry the reordered solvent view in permuted order. -/
theorem saveClustersConfig_solvent_only_reorder_scope {α : Type} [Inhabited α]
    (reorderFn : ReorderFn α) (kabschFn : KabschFn α)
    (nsatoms natoms : ℕ) (reorderexcl : List ℕ) (Qa : List ℕ) (Q : List α)
    (Pa : List ℕ) (P : List α)
    (hns : nsatoms ≠ 0) (hnat : natoms ≤ P.length)
    (hexcl : ∀ e ∈ reorderexcl, e < P.length)
    (hlenFn : ∀ (qa pa : List ℕ) (q p : List α), (reorderFn qa pa q p).length = p.length) :
    (reorderStage reorderFn kabschFn true true nsatoms natoms reorderexcl Qa Q Pa P
        = solventReorderStep reorderFn nsatoms natoms reorderexcl Qa Q Pa P)
    ∧ (reorderStage reorderFn kabschFn true false nsatoms natoms reorderexcl Qa Q Pa P
        = solventReorderStep reorderFn nsatoms natoms reorderexcl Qa Q
            (soluteReorderStep reorderFn natoms reorderexcl Qa Q Pa P).2
            ((soluteReorderStep reorderFn natoms reorderexcl Qa Q Pa P).1.map
              (kabschFn
                ((soluteReorderStep reorderFn natoms reorderexcl Qa Q Pa P).1.take natoms)
                (Q.take natoms))))
    ∧ (∀ i, (i < natoms ∨ i ∈ reorderexcl) → i < P.length →
        (reorderStage reorderFn kabschFn true true nsatoms natoms reorderexcl
            Qa Q Pa P).getD i default
          = P.getD i default)
    ∧ (∀ k, (hk : k <
          (nonExclView P.length (solventExclusions nsatoms natoms reorderexcl)).length) →
        (reorderStage reorderFn kabschFn true true nsatoms natoms reorderexcl
            Qa Q Pa P).getD
            ((nonExclView P.length (solventExclusions nsatoms natoms reorderexcl))[k])
            default
          = (applyPerm
              ((nonExclView P.length (solventExclusions nsatoms natoms reorderexcl)).map
                (fun i => P.getD i default))
              (reorderFn
                ((nonExclView P.length (solventExclusions nsatoms natoms reorderexcl)).map
                  (fun i => Qa.getD i 0))
                ((nonExclView P.length (solventExclusions nsatoms natoms reorderexcl)).map
                  (fun i => Pa.getD i 0))
                ((nonExclView P.length (solventExclusions nsatoms natoms reorderexcl)).map
                  (fun i => Q.getD i default))
                ((nonExclView P.length (solventExclusions nsatoms natoms reorderexcl)).map
                  (fun i => P.getD i default)))).getD k default) := by
  have hsolv_only : reorderStage reorderFn kabschFn true true nsatoms natoms
      reorderexcl Qa Q Pa P
      = solventReorderStep reorderFn nsatoms natoms reorderexcl Qa Q Pa P := rfl
  have hsorted := solventExclusions_sorted nsatoms natoms reorderexcl hns
  have hlt := solventExclusions_lt hns hnat hexcl
  have hcount : (solventExclusions nsatoms natoms reorderexcl).length
      + (nonExclView P.length (solventExclusions nsatoms natoms reorderexcl)).length
      = P.length := by
    have h := @List.length_eq_length_filter_add ℕ (List.range P.length)
      (fun i => decide (i ∈ solventExclusions nsatoms natoms reorderexcl))
    rw [List.length_range, sorted_filter_range hsorted hlt] at h
    unfold nonExclView
    omega
  have hlenpv : (applyPerm
      ((nonExclView P.length (solventExclusions nsatoms natoms reorderexcl)).map
        (fun i => P.getD i default))
      (reorderFn
        ((nonExclView P.length (solventExclusions nsatoms natoms reorderexcl)).map
          (fun i => Qa.getD i 0))
        ((nonExclView P.length (solventExclusions nsatoms natoms reorderexcl)).map
          (fun i => Pa.getD i 0))
        ((nonExclView P.length (solventExclusions nsatoms natoms reorderexcl)).map
          (fun i => Q.getD i default))
        ((nonExclView P.length (solventExclusions nsatoms natoms reorderexcl)).map
          (fun i => P.getD i default)))).length
      + (solventExclusions nsatoms natoms reorderexcl).length = P.length := by
    unfold applyPerm
    rw [List.length_map, hlenFn, List.length_map]
    omega
  refine ⟨hsolv_only, rfl, ?_, ?_⟩
  · intro i hi hiP
    have hmem : i ∈ solventExclusions nsatoms natoms reorderexcl := by
      rcases hi with h | h
      · exact mem_solventExclusions_of_lt_natoms hns h
      · exact mem_solventExclusions_of_excl hns h
    rw [hsolv_only, solventReorderStep_eq]
    exact recombineExcl_getD_of_mem hsorted hlt le_rfl hlenpv hmem
  · intro k hk
    rw [hsolv_only, solventReorderStep_eq]
    exact recombineExcl_getD_of_view hsorted hlt le_rfl hlenpv k hk

/-- Witness for the C4 theorem on a 4-atom system with a 2-atom solute, no
user exclusions, the identity reorder kernel and the identity Kabsch kernel:
solvent-only reorder equals the bare solvent step, and atom 0 (solute) keeps
its position. -/
theorem saveClustersConfig_solvent_only_reorder_scope_witness :
    (reorderStage (fun _ _ _ p => List.range p.length) (fun _ _ => id) true true
        2 2 [] [1, 1, 8, 8] ([1, 2, 3, 4] : List ℤ) [1, 1, 8, 8] [5, 6, 7, 8]
      = solventReorderStep (fun _ _ _ p => List.range p.length) 2 2 []
        [1, 1, 8, 8] ([1, 2, 3, 4] : List ℤ) [1, 1, 8, 8] [5, 6, 7, 8])
    ∧ (reorderStage (fun _ _ _ p => List.range p.length) (fun _ _ => id) true true
        2 2 [] [1, 1, 8, 8] ([1, 2, 3, 4] : List ℤ) [1, 1, 8, 8] [5, 6, 7, 8]).getD 0 default
      = ([5, 6, 7, 8] : List ℤ).getD 0 default := by
  have h := saveClustersConfig_solvent_only_reorder_scope
    (fun _ _ _ p => List.range p.length) (fun _ _ => id)
    2 2 [] [1, 1, 8, 8] ([1, 2, 3, 4] : List ℤ) [1, 1, 8, 8] [5, 6, 7, 8]
    (by decide) (by decide) (by decide)
    (fun qa pa q p => by simp)
  exact ⟨h.1, h.2.2.1 0 (Or.inl (by decide)) (by decide)⟩

end Clusttraj
